import Mathlib

/-!
# Password checker (`security/password_checker/password_checker.go`)

A shallow embedding of the scoring engine of the password checker and the
properties of it that the specification states.

Conventions of the embedding.

* A Go `string` holding well-formed UTF-8 text is the list of its code points
  (`List Char`).  Byte-level operations of the source (`len`, slicing `pw[:sl]`,
  `strings.Repeat`, `==`) act on the UTF-8 encoding `utf8Bytes`; `range pw` and
  `[]rune(pw)` act on the code points.
* `float64` values are read over exact real arithmetic (`ℝ`); `math.Log2` is
  `Real.logb 2`.  Rounding is outside this reading: in particular the sum of
  `shannonEntropy`, which Go accumulates in `float64` while ranging over a map in
  randomised order, is the exact sum here, and nothing below speaks of the last
  bits of a `float64` or of two calls on the same password giving the same bits.
* A Go panic is the `Except.error` outcome of a function returning `Except GoPanic`.
* The parts of the Go standard library that are tables or engines (the Unicode
  range tables above U+00FF, the regular-expression matcher) are parameters,
  collected in `GoLib`; the Latin-1 part of the `unicode` predicates, which Go
  answers from a fixed 256-entry table, is embedded exactly.
-/

namespace PasswordChecker

/-! ## Go strings -/

/-- UTF-8 encoding of one code point, as the list of its bytes. -/
def utf8EncodeRune (r : Char) : List Nat :=
  let v := r.toNat
  if v < 0x80 then [v]
  else if v < 0x800 then [0xC0 + v / 64, 0x80 + v % 64]
  else if v < 0x10000 then [0xE0 + v / 4096, 0x80 + v / 64 % 64, 0x80 + v % 64]
  else [0xF0 + v / 262144, 0x80 + v / 4096 % 64, 0x80 + v / 64 % 64, 0x80 + v % 64]

/-- The bytes of a Go string holding the text `s`. -/
def utf8Bytes (s : List Char) : List Nat :=
  s.flatMap utf8EncodeRune

/-- Go `len(s)` for a string: the number of bytes. -/
def len (s : List Char) : Nat :=
  (utf8Bytes s).length

/-- Go `utf8.RuneCountInString`: the number of code points. -/
def runeCount (s : List Char) : Nat :=
  s.length

/-! ## The Go library -/

/-- The parts of the Go standard library taken as parameters: the range tables of
package `unicode` for code points above U+00FF, and the matcher of package
`regexp` (pattern, subject bytes). -/
structure GoLib where
  upper : Char → Bool
  lower : Char → Bool
  digit : Char → Bool
  letter : Char → Bool
  space : Char → Bool
  reMatch : List Char → List Nat → Bool

/-- Latin-1 code points with property `pLu` in Go's `unicode.properties` table. -/
def latin1Upper (v : Nat) : Bool :=
  (0x41 ≤ v && v ≤ 0x5A) || (0xC0 ≤ v && v ≤ 0xD6) || (0xD8 ≤ v && v ≤ 0xDE)

/-- Latin-1 code points with property `pLl` in Go's `unicode.properties` table. -/
def latin1Lower (v : Nat) : Bool :=
  (0x61 ≤ v && v ≤ 0x7A) || v == 0xB5 || (0xDF ≤ v && v ≤ 0xF6) || (0xF8 ≤ v && v ≤ 0xFF)

/-- Latin-1 code points with a letter property (`pLmask`): upper, lower, and the
two `pLo` entries U+00AA and U+00BA. -/
def latin1Letter (v : Nat) : Bool :=
  latin1Upper v || latin1Lower v || v == 0xAA || v == 0xBA

/-- Latin-1 white space, the `switch` of `unicode.IsSpace`. -/
def latin1Space (v : Nat) : Bool :=
  v == 0x09 || v == 0x0A || v == 0x0B || v == 0x0C || v == 0x0D || v == 0x20 ||
    v == 0x85 || v == 0xA0

/-- Go `unicode.IsUpper`. -/
def IsUpper (G : GoLib) (r : Char) : Bool :=
  if r.toNat ≤ 0xFF then latin1Upper r.toNat else G.upper r

/-- Go `unicode.IsLower`. -/
def IsLower (G : GoLib) (r : Char) : Bool :=
  if r.toNat ≤ 0xFF then latin1Lower r.toNat else G.lower r

/-- Go `unicode.IsDigit`. -/
def IsDigit (G : GoLib) (r : Char) : Bool :=
  if r.toNat ≤ 0xFF then (0x30 ≤ r.toNat && r.toNat ≤ 0x39) else G.digit r

/-- Go `unicode.IsLetter`. -/
def IsLetter (G : GoLib) (r : Char) : Bool :=
  if r.toNat ≤ 0xFF then latin1Letter r.toNat else G.letter r

/-- Go `unicode.IsSpace`. -/
def IsSpace (G : GoLib) (r : Char) : Bool :=
  if r.toNat ≤ 0xFF then latin1Space r.toNat else G.space r

/-- Go `strings.TrimSpace`: the leading and the trailing white space removed. -/
def TrimSpace (G : GoLib) (s : List Char) : List Char :=
  ((s.dropWhile (IsSpace G)).reverse.dropWhile (IsSpace G)).reverse

/-- A library instance whose tables above U+00FF are empty.  It agrees with Go on
every string of Latin-1 characters, and is used only on such strings. -/
def latin1Lib : GoLib :=
  { upper := fun _ => false
    lower := fun _ => false
    digit := fun _ => false
    letter := fun _ => false
    space := fun _ => false
    reMatch := fun _ _ => false }

/-- The panics of the program. -/
inductive GoPanic where
  /-- The panic of `regexp.MustCompile` on a pattern that does not parse. -/
  | regexpCompile (pattern : List Char)
  deriving DecidableEq, Repr

/-- The escape rule of `regexp/syntax` for a backslash followed by a digit: `\1` to
`\7` is an octal escape only when another octal digit follows (a single non-zero
digit would be a backreference, which RE2 syntax does not have), and `\8`, `\9`
are never escapes.  Returns `true` when the pattern holds such an invalid escape. -/
def hasInvalidDigitEscape : List Char → Bool
  | [] => false
  | [_] => false
  | c :: d :: rest =>
    if c = '\\' then
      if '1' ≤ d ∧ d ≤ '7' then
        match rest with
        | [] => true
        | e :: _ => if '0' ≤ e ∧ e ≤ '7' then hasInvalidDigitEscape rest else true
      else if d = '8' ∨ d = '9' then true
      else hasInvalidDigitEscape rest
    else hasInvalidDigitEscape (d :: rest)

/-- A compiled regular expression. -/
structure Regexp where
  pattern : List Char
  deriving DecidableEq, Repr

/-- Go `regexp.MustCompile`: panics on a pattern that does not parse.  Of the
parser only the digit-escape rule is embedded. -/
def regexpMustCompile (pattern : List Char) : Except GoPanic Regexp :=
  if hasInvalidDigitEscape pattern then .error (.regexpCompile pattern)
  else .ok { pattern := pattern }

/-- Go `(*Regexp).MatchString`. -/
def Regexp.MatchString (G : GoLib) (re : Regexp) (s : List Char) : Bool :=
  G.reMatch re.pattern (utf8Bytes s)

/-! ## The program -/

/-- The built-in `commonPasswords` set. -/
def commonPasswords : List (List Char) :=
  ["123456".toList, "password".toList, "123456789".toList, "12345678".toList,
   "12345".toList, "qwerty".toList, "abc123".toList, "football".toList,
   "111111".toList, "123123".toList, "admin".toList, "letmein".toList,
   "welcome".toList, "monkey".toList, "login".toList]

/-- The four flags of the loop of `charsetSize`. -/
structure ClassFlags where
  hasLower : Bool := false
  hasUpper : Bool := false
  hasDigit : Bool := false
  hasSymbol : Bool := false
  deriving DecidableEq, Repr

/-- One iteration of the `switch` of `charsetSize`. -/
def charsetStep (G : GoLib) (f : ClassFlags) (r : Char) : ClassFlags :=
  if IsLower G r then { f with hasLower := true }
  else if IsUpper G r then { f with hasUpper := true }
  else if IsDigit G r then { f with hasDigit := true }
  else { f with hasSymbol := true }

/-- Source `charsetSize`. -/
def charsetSize (G : GoLib) (pw : List Char) : Nat :=
  let f := pw.foldl (charsetStep G) {}
  (if f.hasLower then 26 else 0) + (if f.hasUpper then 26 else 0) +
    (if f.hasDigit then 10 else 0) + (if f.hasSymbol then 32 else 0)

/-- Source `shannonEntropy`.  The frequency map is keyed by code point, the length
`L` is `len(pw)`, the number of bytes.  Go ranges over the map in randomised order
and accumulates `H` in `float64`, so with more than one key the last bits of the
result can differ from call to call; the fold here is the exact real sum, taken
over the keys in a fixed order, and is exact for a map with one key. -/
noncomputable def shannonEntropy (pw : List Char) : ℝ :=
  if len pw = 0 then 0
  else
    let L : ℝ := (len pw : ℝ)
    let H : ℝ := pw.dedup.foldl
      (fun H r => H - ((pw.count r : ℝ) / L) * Real.logb 2 ((pw.count r : ℝ) / L)) 0
    H * L

/-- Source `bruteforceEntropy`. -/
noncomputable def bruteforceEntropy (G : GoLib) (pw : List Char) : ℝ :=
  let cs : ℝ := (charsetSize G pw : ℝ)
  if cs ≤ 1 then 0
  else (len pw : ℝ) * Real.logb 2 cs

/-- The test of one pass of the loop of `hasRepeatedSequence`, on the bytes `b` of
the password: `L % sl == 0` and `strings.Repeat(pw[:sl], L/sl) == pw`. -/
def repeatsPrefix (b : List Nat) (sl : Nat) : Bool :=
  b.length % sl == 0 && (List.replicate (b.length / sl) (b.take sl)).flatten == b

/-- The `for sl := 1; sl <= L/2; sl++` loop of `hasRepeatedSequence`: `true` when
some pass returns `true`. -/
def periodicLoop (b : List Nat) : Bool :=
  (List.range' 1 (b.length / 2)).any (repeatsPrefix b)

/-- The pattern literal of `hasRepeatedSequence`: `(.)\1{3,}`. -/
def runPattern : List Char :=
  ['(', '.', ')', '\\', '1', '{', '3', ',', '}']

/-- Source `hasRepeatedSequence`. -/
def hasRepeatedSequence (G : GoLib) (pw : List Char) : Except GoPanic Bool :=
  if periodicLoop (utf8Bytes pw) then .ok true
  else
    match regexpMustCompile runPattern with
    | .error e => .error e
    | .ok re => .ok (re.MatchString G pw)

/-- One of the two loops of `hasSequentialChars`, from index `i` on: `prev` is
`r[i-1]`, `count` the running count, `step` is `+1` (ascending) or `-1`. -/
def seqLoop (step : Int) (minSeq : Int) : Char → Int → List Char → Bool
  | _, _, [] => false
  | prev, count, r :: rest =>
    let count1 := if (r.toNat : Int) = (prev.toNat : Int) + step then count + 1 else 1
    if count1 ≥ minSeq then true else seqLoop step minSeq r count1 rest

/-- Source `hasSequentialChars`. -/
def hasSequentialChars (pw : List Char) (minSeq : Int) : Bool :=
  if (len pw : Int) < minSeq then false
  else
    match pw with
    | [] => false
    | r0 :: rest =>
      if seqLoop 1 minSeq r0 1 rest then true
      else if seqLoop (-1) minSeq r0 1 rest then true
      else false

/-- Source `isOnlyDigitsOrLetters`. -/
def isOnlyDigitsOrLetters (G : GoLib) (pw : List Char) : Bool :=
  let st := pw.foldl
    (fun (st : Bool × Bool) r =>
      (if !IsDigit G r then false else st.1, if !IsLetter G r then false else st.2))
    (true, true)
  st.1 || st.2

/-- Source `Result`. -/
structure Result where
  Password : List Char
  Length : Nat
  ShannonEntropy : ℝ
  BruteforceEntropy : ℝ
  CharsetSize : Nat
  HasUpper : Bool
  HasLower : Bool
  HasDigit : Bool
  HasSymbol : Bool
  IsCommon : Bool
  RepeatedSequence : Bool
  Sequential : Bool
  OnlyDigitsOrLetters : Bool
  ScoreRaw : ℝ
  Strength : String

/-- Go `math.Round`: to the nearest integer, halves away from zero. -/
noncomputable def goRound (x : ℝ) : ℝ :=
  if 0 ≤ x then (⌊x + 1 / 2⌋ : ℝ) else -(⌊-x + 1 / 2⌋ : ℝ)

/-- The membership test of `evaluatePassword`: the built-in set, and the
supplemental set when it is not `nil`.  The source writes the second test as
`_, inCommon = inCommon || ok`, a two-target assignment of one value, which the Go
compiler rejects; it is read here as the assignment `inCommon = inCommon || ok`. -/
def inCommonSets (pw : List Char) (extraCommon : Option (List (List Char))) : Bool :=
  let inCommon := decide (pw ∈ commonPasswords)
  match extraCommon with
  | none => inCommon
  | some extra => inCommon || decide (pw ∈ extra)

/-- The `score` variable of `evaluatePassword` after the scoring block. -/
noncomputable def rawScore (bruteforce : ℝ)
    (hasUpper hasLower hasDigit hasSymbol isCommon repeated sequential onlyDL : Bool) : ℝ :=
  let score : ℝ := 0
  let score := score + min (bruteforce / 20) 5
  let score := if hasUpper && hasLower then score + 1 else score
  let score := if hasDigit then score + 1 else score
  let score := if hasSymbol then score + 1 else score
  let score := if isCommon then score - 5 else score
  let score := if repeated then score - 2 else score
  let score := if sequential then score - 2 else score
  let score := if onlyDL then score - 1 / 2 else score
  score

/-- The label chosen from the `score` variable. -/
noncomputable def strengthLabel (score : ℝ) : String :=
  if score < 3 / 2 then "WEAK"
  else if score < 4 then "MODERATE"
  else "STRONG"

/-- Source `evaluatePassword`.  The call of `hasRepeatedSequence` may panic, and
then no `Result` is returned. -/
noncomputable def evaluatePassword (G : GoLib) (pw0 : List Char)
    (extraCommon : Option (List (List Char))) : Except GoPanic Result :=
  let pw := TrimSpace G pw0
  let hasUpper := pw.any (IsUpper G)
  let hasLower := pw.any (IsLower G)
  let hasDigit := pw.any (IsDigit G)
  let hasSymbol := pw.any (fun r => !IsLetter G r && !IsDigit G r)
  let isCommon := inCommonSets pw extraCommon
  match hasRepeatedSequence G pw with
  | .error e => .error e
  | .ok repeated =>
    let sequential := hasSequentialChars pw 4
    let onlyDL := isOnlyDigitsOrLetters G pw
    let score := rawScore (bruteforceEntropy G pw) hasUpper hasLower hasDigit hasSymbol
      isCommon repeated sequential onlyDL
    .ok
      { Password := pw
        Length := len pw
        ShannonEntropy := shannonEntropy pw
        BruteforceEntropy := bruteforceEntropy G pw
        CharsetSize := charsetSize G pw
        HasUpper := hasUpper
        HasLower := hasLower
        HasDigit := hasDigit
        HasSymbol := hasSymbol
        IsCommon := isCommon
        RepeatedSequence := repeated
        Sequential := sequential
        OnlyDigitsOrLetters := onlyDL
        ScoreRaw := goRound (score * 100) / 100
        Strength := strengthLabel score }

/-- The `Result` that `evaluatePassword` assembles for the trimmed password `pw`
once `hasRepeatedSequence` has returned `repeated`. -/
noncomputable def resultOf (G : GoLib) (pw : List Char)
    (extraCommon : Option (List (List Char))) (repeated : Bool) : Result :=
  let hasUpper := pw.any (IsUpper G)
  let hasLower := pw.any (IsLower G)
  let hasDigit := pw.any (IsDigit G)
  let hasSymbol := pw.any (fun r => !IsLetter G r && !IsDigit G r)
  let isCommon := inCommonSets pw extraCommon
  let sequential := hasSequentialChars pw 4
  let onlyDL := isOnlyDigitsOrLetters G pw
  let score := rawScore (bruteforceEntropy G pw) hasUpper hasLower hasDigit hasSymbol
    isCommon repeated sequential onlyDL
  { Password := pw
    Length := len pw
    ShannonEntropy := shannonEntropy pw
    BruteforceEntropy := bruteforceEntropy G pw
    CharsetSize := charsetSize G pw
    HasUpper := hasUpper
    HasLower := hasLower
    HasDigit := hasDigit
    HasSymbol := hasSymbol
    IsCommon := isCommon
    RepeatedSequence := repeated
    Sequential := sequential
    OnlyDigitsOrLetters := onlyDL
    ScoreRaw := goRound (score * 100) / 100
    Strength := strengthLabel score }

/-- The unrounded `score` of `evaluatePassword`, recomputed from the fields of the
`Result` it returned. -/
noncomputable def Result.score (r : Result) : ℝ :=
  rawScore r.BruteforceEntropy r.HasUpper r.HasLower r.HasDigit r.HasSymbol
    r.IsCommon r.RepeatedSequence r.Sequential r.OnlyDigitsOrLetters

/-- The test of the loops of `hasSequentialChars` on two neighbours `a`, `b`:
the code point of `b` is the code point of `a` plus `step`. -/
def stepsBy (step : Int) (a b : Char) : Bool :=
  decide ((b.toNat : Int) = (a.toNat : Int) + step)

/-- Some four neighbouring code points of the list are linked by `stepsBy step`. -/
def hasRun4 (step : Int) : List Char → Bool
  | [] => false
  | a :: t =>
    (match t with
      | b :: c :: d :: _ => stepsBy step a b && stepsBy step b c && stepsBy step c d
      | _ => false) || hasRun4 step t

/-- The number of the four class flags of `evaluatePassword` that one code point
sets: `HasUpper`, `HasLower`, `HasDigit`, and `HasSymbol` (no letter and no digit). -/
def flagCount (G : GoLib) (r : Char) : Nat :=
  (if IsUpper G r then 1 else 0) + (if IsLower G r then 1 else 0) +
    (if IsDigit G r then 1 else 0) + (if !IsLetter G r && !IsDigit G r then 1 else 0)

/-! ## The panic of `hasRepeatedSequence` -/

theorem regexpMustCompile_runPattern :
    regexpMustCompile runPattern = .error (.regexpCompile runPattern) := rfl

theorem hasRepeatedSequence_eq (G : GoLib) (pw : List Char) :
    hasRepeatedSequence G pw =
      if periodicLoop (utf8Bytes pw) then .ok true
      else .error (.regexpCompile runPattern) := by
  unfold hasRepeatedSequence
  rw [regexpMustCompile_runPattern]

theorem evaluatePassword_eq (G : GoLib) (p : List Char) (S : Option (List (List Char))) :
    evaluatePassword G p S =
      if periodicLoop (utf8Bytes (TrimSpace G p)) then .ok (resultOf G (TrimSpace G p) S true)
      else .error (.regexpCompile runPattern) := by
  unfold evaluatePassword
  simp only [hasRepeatedSequence_eq]
  split_ifs with h <;> rfl

theorem evaluatePassword_of_periodic {G : GoLib} {p : List Char}
    (S : Option (List (List Char)))
    (h : periodicLoop (utf8Bytes (TrimSpace G p)) = true) :
    evaluatePassword G p S = .ok (resultOf G (TrimSpace G p) S true) := by
  rw [evaluatePassword_eq, if_pos h]

theorem evaluatePassword_of_not_periodic {G : GoLib} {p : List Char}
    (S : Option (List (List Char)))
    (h : periodicLoop (utf8Bytes (TrimSpace G p)) = false) :
    evaluatePassword G p S = .error (.regexpCompile runPattern) := by
  rw [evaluatePassword_eq, h]
  rfl

theorem evaluatePassword_ok {G : GoLib} {p : List Char} {S : Option (List (List Char))}
    {r : Result} (h : evaluatePassword G p S = .ok r) :
    periodicLoop (utf8Bytes (TrimSpace G p)) = true ∧ r = resultOf G (TrimSpace G p) S true := by
  rw [evaluatePassword_eq] at h
  by_cases hp : periodicLoop (utf8Bytes (TrimSpace G p)) = true
  · rw [if_pos hp] at h
    exact ⟨hp, (Except.ok.inj h).symm⟩
  · rw [if_neg hp] at h
    cases h

/-- C1. `evaluatePassword` is not total: on the password `abc`, which is not a
repetition of a proper prefix, the call `regexp.MustCompile` inside
`hasRepeatedSequence` panics and no `Result` is returned, whatever the
supplemental set. -/
theorem evaluatePassword_abc_panics (G : GoLib) (S : Option (List (List Char))) :
    evaluatePassword G "abc".toList S = .error (.regexpCompile runPattern) := by
  apply evaluatePassword_of_not_periodic
  have ht : TrimSpace G "abc".toList = "abc".toList := rfl
  rw [ht]
  decide

/-- C4. On every password that is empty after trimming, `evaluatePassword` panics
instead of returning a `Result` with zero fields. -/
theorem evaluatePassword_blank_panics (G : GoLib) (p : List Char)
    (S : Option (List (List Char))) (h : TrimSpace G p = []) :
    evaluatePassword G p S = .error (.regexpCompile runPattern) := by
  apply evaluatePassword_of_not_periodic
  rw [h]
  rfl

/-- Instance of the panic on a blank password: the empty password and a password of a space and a tab. -/
theorem evaluatePassword_blank_panics_witness :
    TrimSpace latin1Lib " \t".toList = [] ∧
      evaluatePassword latin1Lib [] none = .error (.regexpCompile runPattern) ∧
      evaluatePassword latin1Lib " \t".toList none = .error (.regexpCompile runPattern) :=
  ⟨by decide, evaluatePassword_blank_panics latin1Lib [] none (by decide),
    evaluatePassword_blank_panics latin1Lib " \t".toList none (by decide)⟩

/-- C5. On the password `hunter2`, absent from the built-in set and present in the
supplemental set, `evaluatePassword` panics: no `IsCommon` is reported. -/
theorem evaluatePassword_supplemental_panics (G : GoLib) :
    evaluatePassword G "hunter2".toList (some ["hunter2".toList]) =
      .error (.regexpCompile runPattern) := by
  apply evaluatePassword_of_not_periodic
  have ht : TrimSpace G "hunter2".toList = "hunter2".toList := rfl
  rw [ht]
  decide

/-- C6. On the built-in common password `123456`, `evaluatePassword` panics: no
`IsCommon` and no `Strength` are reported. -/
theorem evaluatePassword_123456_panics (G : GoLib) (S : Option (List (List Char))) :
    "123456".toList ∈ commonPasswords ∧
      evaluatePassword G "123456".toList S = .error (.regexpCompile runPattern) := by
  refine ⟨by decide, ?_⟩
  apply evaluatePassword_of_not_periodic
  have ht : TrimSpace G "123456".toList = "123456".toList := rfl
  rw [ht]
  decide

/-- C10. On `xaaaay`, which holds the character `a` four times in a row and is
not a repetition of a proper prefix, `hasRepeatedSequence` panics instead of
returning `true`. -/
theorem hasRepeatedSequence_xaaaay_panics (G : GoLib) :
    hasRepeatedSequence G "xaaaay".toList = .error (.regexpCompile runPattern) := by
  rw [hasRepeatedSequence_eq]
  have hp : periodicLoop (utf8Bytes "xaaaay".toList) = false := by decide
  rw [hp]
  rfl

/-! ## Periodic repetition -/

theorem utf8EncodeRune_ne_nil (r : Char) : utf8EncodeRune r ≠ [] := by
  unfold utf8EncodeRune
  simp only
  split_ifs <;> simp

theorem utf8Bytes_ne_nil {s : List Char} (h : s ≠ []) : utf8Bytes s ≠ [] := by
  cases s with
  | nil => exact absurd rfl h
  | cons c t =>
    intro hb
    have hc : utf8EncodeRune c ++ utf8Bytes t = [] := by
      simpa [utf8Bytes] using hb
    exact utf8EncodeRune_ne_nil c (List.append_eq_nil.mp hc).1

theorem utf8Bytes_append (s t : List Char) :
    utf8Bytes (s ++ t) = utf8Bytes s ++ utf8Bytes t := by
  simp [utf8Bytes]

theorem utf8Bytes_repeat (s : List Char) (k : Nat) :
    utf8Bytes (List.replicate k s).flatten = (List.replicate k (utf8Bytes s)).flatten := by
  induction k with
  | zero => rfl
  | succ n ih =>
    rw [List.replicate_succ, List.replicate_succ, List.flatten_cons, List.flatten_cons,
      utf8Bytes_append, ih]

theorem length_repeat (b : List Nat) (k : Nat) :
    (List.replicate k b).flatten.length = k * b.length := by
  induction k with
  | zero => simp
  | succ n ih =>
    rw [List.replicate_succ, List.flatten_cons, List.length_append, ih]
    ring

theorem take_repeat (b : List Nat) (k : Nat) :
    ((List.replicate (k + 1) b).flatten).take b.length = b := by
  rw [List.replicate_succ, List.flatten_cons]
  exact List.take_left' rfl

theorem periodicLoop_repeat (b : List Nat) (k : Nat) (hb : b ≠ []) (hk : 2 ≤ k) :
    periodicLoop (List.replicate k b).flatten = true := by
  have hpos : 0 < b.length := List.length_pos.mpr hb
  unfold periodicLoop
  rw [List.any_eq_true]
  refine ⟨b.length, ?_, ?_⟩
  · rw [List.mem_range'_1, length_repeat]
    refine ⟨hpos, ?_⟩
    have h2 : b.length ≤ k * b.length / 2 := by
      rw [Nat.le_div_iff_mul_le (by decide)]
      nlinarith
    omega
  · unfold repeatsPrefix
    rw [length_repeat, Nat.mul_mod_left, Nat.mul_div_cancel _ hpos]
    obtain ⟨j, rfl⟩ : ∃ j, k = j + 1 := ⟨k - 1, by omega⟩
    rw [take_repeat]
    simp

/-- C9. For every non-empty string `s` and every `k ≥ 2`, `hasRepeatedSequence`
applied to `s` repeated `k` times returns `true`. -/
theorem hasRepeatedSequence_repeat (G : GoLib) (s : List Char) (k : Nat)
    (hs : s ≠ []) (hk : 2 ≤ k) :
    hasRepeatedSequence G (List.replicate k s).flatten = .ok true := by
  rw [hasRepeatedSequence_eq, utf8Bytes_repeat,
    periodicLoop_repeat (utf8Bytes s) k (utf8Bytes_ne_nil hs) hk]
  rfl

/-- Instances of the repetition theorem: `abab`, `abcabc`, `abcabcabc` and `aaaa`. -/
theorem hasRepeatedSequence_repeat_witness :
    hasRepeatedSequence latin1Lib "abab".toList = .ok true ∧
      hasRepeatedSequence latin1Lib "abcabc".toList = .ok true ∧
      hasRepeatedSequence latin1Lib "abcabcabc".toList = .ok true ∧
      hasRepeatedSequence latin1Lib "aaaa".toList = .ok true :=
  ⟨hasRepeatedSequence_repeat latin1Lib "ab".toList 2 (by decide) (by decide),
    hasRepeatedSequence_repeat latin1Lib "abc".toList 2 (by decide) (by decide),
    hasRepeatedSequence_repeat latin1Lib "abc".toList 3 (by decide) (by decide),
    hasRepeatedSequence_repeat latin1Lib "a".toList 4 (by decide) (by decide)⟩

/-! ## Sequential runs -/

theorem seqLoop_cons (step : Int) (prev : Char) (count : Int) (r : Char) (rest : List Char) :
    seqLoop step 4 prev count (r :: rest) =
      if (if stepsBy step prev r then count + 1 else 1) ≥ 4 then true
      else seqLoop step 4 r (if stepsBy step prev r then count + 1 else 1) rest := by
  simp only [seqLoop, stepsBy, decide_eq_true_eq]

theorem hasRun4_skip (step : Int) (a b : Char) (t : List Char)
    (h : stepsBy step a b = false) :
    hasRun4 step (a :: b :: t) = hasRun4 step (b :: t) := by
  rcases t with _ | ⟨c, _ | ⟨d, t⟩⟩ <;> simp [hasRun4, h]

theorem seqLoop_eq_hasRun4 (step : Int) (rest : List Char) :
    ∀ prev : Char,
      seqLoop step 4 prev 1 rest = hasRun4 step (prev :: rest) ∧
      (∀ p1, stepsBy step p1 prev = true →
        seqLoop step 4 prev 2 rest = hasRun4 step (p1 :: prev :: rest)) ∧
      (∀ p2 p1, stepsBy step p2 p1 = true → stepsBy step p1 prev = true →
        seqLoop step 4 prev 3 rest = hasRun4 step (p2 :: p1 :: prev :: rest)) := by
  induction rest with
  | nil =>
    intro prev
    refine ⟨?_, ?_, ?_⟩
    · simp [seqLoop, hasRun4]
    · intro p1 _
      simp [seqLoop, hasRun4]
    · intro p2 p1 _ _
      simp [seqLoop, hasRun4]
  | cons r rs ih =>
    intro prev
    obtain ⟨ih1, ih2, ih3⟩ := ih r
    cases hl : stepsBy step prev r with
    | true =>
      refine ⟨?_, ?_, ?_⟩
      · rw [seqLoop_cons, hl]
        simpa using ih2 prev hl
      · intro p1 h1
        rw [seqLoop_cons, hl]
        simpa using ih3 p1 prev h1 hl
      · intro p2 p1 h2 h1
        rw [seqLoop_cons, hl]
        simp [hasRun4, h2, h1, hl]
    | false =>
      have hskip := hasRun4_skip step prev r rs hl
      refine ⟨?_, ?_, ?_⟩
      · rw [seqLoop_cons, hl, hskip]
        simpa using ih1
      · intro p1 _
        rw [seqLoop_cons, hl]
        have e : hasRun4 step (p1 :: prev :: r :: rs) = hasRun4 step (prev :: r :: rs) := by
          rcases rs with _ | ⟨d, t⟩ <;> simp [hasRun4, hl]
        rw [e, hskip]
        simpa using ih1
      · intro p2 p1 _ _
        rw [seqLoop_cons, hl]
        have e1 : hasRun4 step (p2 :: p1 :: prev :: r :: rs) =
            hasRun4 step (p1 :: prev :: r :: rs) := by
          simp [hasRun4, hl]
        have e2 : hasRun4 step (p1 :: prev :: r :: rs) = hasRun4 step (prev :: r :: rs) := by
          rcases rs with _ | ⟨d, t⟩ <;> simp [hasRun4, hl]
        rw [e1, e2, hskip]
        simpa using ih1

theorem hasRun4_iff (step : Int) (l : List Char) :
    hasRun4 step l = true ↔
      ∃ pre a b c d post, l = pre ++ a :: b :: c :: d :: post ∧
        stepsBy step a b = true ∧ stepsBy step b c = true ∧ stepsBy step c d = true := by
  induction l with
  | nil =>
    simp [hasRun4]
  | cons x t ih =>
    constructor
    · intro h
      simp only [hasRun4, Bool.or_eq_true] at h
      rcases h with h | h
      · rcases t with _ | ⟨b, _ | ⟨c, _ | ⟨d, post⟩⟩⟩ <;> simp at h
        exact ⟨[], x, b, c, d, post, rfl, h.1.1, h.1.2, h.2⟩
      · obtain ⟨pre, a, b, c, d, post, rfl, h1, h2, h3⟩ := ih.mp h
        exact ⟨x :: pre, a, b, c, d, post, rfl, h1, h2, h3⟩
    · rintro ⟨pre, a, b, c, d, post, he, h1, h2, h3⟩
      simp only [hasRun4, Bool.or_eq_true]
      rcases pre with _ | ⟨y, pre⟩
      · left
        simp only [List.nil_append, List.cons.injEq] at he
        obtain ⟨rfl, rfl⟩ := he
        simp [h1, h2, h3]
      · right
        simp only [List.cons_append, List.cons.injEq] at he
        obtain ⟨rfl, rfl⟩ := he
        exact ih.mpr ⟨pre, a, b, c, d, post, rfl, h1, h2, h3⟩

theorem runeCount_le_len (s : List Char) : runeCount s ≤ len s := by
  induction s with
  | nil => simp [runeCount, len, utf8Bytes]
  | cons c t ih =>
    have hc : 0 < (utf8EncodeRune c).length := List.length_pos.mpr (utf8EncodeRune_ne_nil c)
    simp only [runeCount, len, utf8Bytes, List.flatMap_cons, List.length_append,
      List.length_cons] at ih ⊢
    omega

theorem hasSequentialChars_eq_hasRun4 (pw : List Char) :
    hasSequentialChars pw 4 = (hasRun4 1 pw || hasRun4 (-1) pw) := by
  unfold hasSequentialChars
  by_cases hlen : (len pw : Int) < 4
  · rw [if_pos hlen]
    have hshort : ∀ step, hasRun4 step pw = false := by
      intro step
      rw [Bool.eq_false_iff]
      intro h
      obtain ⟨pre, a, b, c, d, post, rfl, -⟩ := (hasRun4_iff step _).mp h
      have := runeCount_le_len (pre ++ a :: b :: c :: d :: post)
      simp only [runeCount, List.length_append, List.length_cons] at this
      omega
    simp [hshort]
  · rw [if_neg hlen]
    cases pw with
    | nil => simp [hasRun4]
    | cons r0 rest =>
      simp only
      rw [(seqLoop_eq_hasRun4 1 rest r0).1, (seqLoop_eq_hasRun4 (-1) rest r0).1]
      cases hasRun4 1 (r0 :: rest) <;> cases hasRun4 (-1) (r0 :: rest) <;> rfl

/-- C8. `hasSequentialChars pw 4` is `true` exactly when the code points of `pw`
hold four neighbours each one greater than the one before, or four neighbours each
one less than the one before; `abcd1234` and `4321` give `true`, `abdc` gives
`false`. -/
theorem hasSequentialChars_four_iff :
    (∀ pw : List Char, hasSequentialChars pw 4 = true ↔
      ((∃ pre a b c d post, pw = pre ++ a :: b :: c :: d :: post ∧
          b.toNat = a.toNat + 1 ∧ c.toNat = b.toNat + 1 ∧ d.toNat = c.toNat + 1) ∨
        (∃ pre a b c d post, pw = pre ++ a :: b :: c :: d :: post ∧
          b.toNat + 1 = a.toNat ∧ c.toNat + 1 = b.toNat ∧ d.toNat + 1 = c.toNat))) ∧
      hasSequentialChars "abcd1234".toList 4 = true ∧
      hasSequentialChars "4321".toList 4 = true ∧
      hasSequentialChars "abdc".toList 4 = false := by
  refine ⟨?_, by decide, by decide, by decide⟩
  intro pw
  have up : ∀ a b : Char, stepsBy 1 a b = true ↔ b.toNat = a.toNat + 1 := by
    intro a b
    simp only [stepsBy, decide_eq_true_eq]
    omega
  have down : ∀ a b : Char, stepsBy (-1) a b = true ↔ b.toNat + 1 = a.toNat := by
    intro a b
    simp only [stepsBy, decide_eq_true_eq]
    omega
  rw [hasSequentialChars_eq_hasRun4, Bool.or_eq_true, hasRun4_iff, hasRun4_iff]
  simp only [up, down]

/-! ## Length -/

theorem len_eq_runeCount_of_ascii (s : List Char) (h : ∀ c ∈ s, c.toNat < 0x80) :
    len s = runeCount s := by
  induction s with
  | nil => rfl
  | cons c t ih =>
    have hc : utf8EncodeRune c = [c.toNat] := by
      unfold utf8EncodeRune
      simp only
      rw [if_pos (h c (List.mem_cons_self c t))]
    have ht := ih (fun d hd => h d (List.mem_cons_of_mem c hd))
    simp only [len, runeCount, utf8Bytes, List.flatMap_cons, List.length_append,
      List.length_cons, hc] at ht ⊢
    simp only [List.length_nil]
    omega

/-- C3, amended. Whenever `evaluatePassword` returns a `Result`, its `Password`
is the trimmed password and its `Length` is the number of bytes of the UTF-8
encoding of the trimmed password; this is the number of code points when the
trimmed password is ASCII. -/
theorem evaluatePassword_length (G : GoLib) (p : List Char)
    (S : Option (List (List Char))) (r : Result) (h : evaluatePassword G p S = .ok r) :
    r.Password = TrimSpace G p ∧ r.Length = len (TrimSpace G p) ∧
      ((∀ c ∈ TrimSpace G p, c.toNat < 0x80) → r.Length = runeCount (TrimSpace G p)) := by
  obtain ⟨-, rfl⟩ := evaluatePassword_ok h
  exact ⟨rfl, rfl, fun ha => len_eq_runeCount_of_ascii _ ha⟩

theorem trimSpace_padded_abab : TrimSpace latin1Lib " abab\n".toList = "abab".toList := by
  decide

theorem evaluatePassword_padded_abab :
    evaluatePassword latin1Lib " abab\n".toList none =
      .ok (resultOf latin1Lib "abab".toList none true) := by
  rw [evaluatePassword_of_periodic none (by rw [trimSpace_padded_abab]; decide),
    trimSpace_padded_abab]

/-- Instance of the length theorem: the password `abab` with a leading space and a trailing newline. -/
theorem evaluatePassword_length_witness :
    evaluatePassword latin1Lib " abab\n".toList none =
        .ok (resultOf latin1Lib "abab".toList none true) ∧
      (resultOf latin1Lib "abab".toList none true).Password =
        TrimSpace latin1Lib " abab\n".toList ∧
      (resultOf latin1Lib "abab".toList none true).Length =
        len (TrimSpace latin1Lib " abab\n".toList) ∧
      ((∀ c ∈ TrimSpace latin1Lib " abab\n".toList, c.toNat < 0x80) →
        (resultOf latin1Lib "abab".toList none true).Length =
          runeCount (TrimSpace latin1Lib " abab\n".toList)) :=
  ⟨evaluatePassword_padded_abab,
    evaluatePassword_length latin1Lib " abab\n".toList none _ evaluatePassword_padded_abab⟩

/-- C3, counterexample. For the password `éé` (two code points, four bytes)
`evaluatePassword` returns a `Result` with `Length = 4`. -/
theorem evaluatePassword_length_bytes :
    Except.map Result.Length (evaluatePassword latin1Lib "éé".toList none) = .ok 4 ∧
      runeCount (TrimSpace latin1Lib "éé".toList) = 2 := by
  refine ⟨?_, by decide⟩
  rw [evaluatePassword_of_periodic none (by decide)]
  rfl

/-! ## Score and label -/

theorem goRound_le (x : ℝ) (n : ℤ) (hn : 0 ≤ n) (h : x < n) : goRound x ≤ n := by
  unfold goRound
  split_ifs with hx
  · have hlt : ⌊x + 1 / 2⌋ < n + 1 := by
      rw [Int.floor_lt]
      push_cast
      linarith
    have hle : ⌊x + 1 / 2⌋ ≤ n := by omega
    exact_mod_cast hle
  · have h0 : (0 : ℤ) ≤ ⌊-x + 1 / 2⌋ := by
      rw [Int.le_floor]
      push_cast
      linarith
    have h0r : (0 : ℝ) ≤ (⌊-x + 1 / 2⌋ : ℝ) := by exact_mod_cast h0
    have hnr : (0 : ℝ) ≤ (n : ℝ) := by exact_mod_cast hn
    linarith

theorem le_goRound (x : ℝ) (n : ℤ) (hn : 0 ≤ n) (h : (n : ℝ) ≤ x) : (n : ℝ) ≤ goRound x := by
  have hnr : (0 : ℝ) ≤ (n : ℝ) := by exact_mod_cast hn
  unfold goRound
  rw [if_pos (le_trans hnr h)]
  have hle : n ≤ ⌊x + 1 / 2⌋ := by
    rw [Int.le_floor]
    linarith
  exact_mod_cast hle

theorem scoreRaw_le_of_lt (s : ℝ) (n : ℤ) (hn : 0 ≤ n) (h : s < n / 100) :
    goRound (s * 100) / 100 ≤ n / 100 := by
  have h1 : s * 100 < n := by linarith
  have h2 := goRound_le (s * 100) n hn h1
  linarith

theorem le_scoreRaw_of_le (s : ℝ) (n : ℤ) (hn : 0 ≤ n) (h : (n : ℝ) / 100 ≤ s) :
    (n : ℝ) / 100 ≤ goRound (s * 100) / 100 := by
  have h1 : (n : ℝ) ≤ s * 100 := by linarith
  have h2 := le_goRound (s * 100) n hn h1
  linarith

theorem strengthLabel_weak {s : ℝ} (h : s < 3 / 2) : strengthLabel s = "WEAK" := by
  unfold strengthLabel
  rw [if_pos h]

theorem strengthLabel_moderate {s : ℝ} (h1 : 3 / 2 ≤ s) (h2 : s < 4) :
    strengthLabel s = "MODERATE" := by
  unfold strengthLabel
  rw [if_neg (not_lt.mpr h1), if_pos h2]

theorem strengthLabel_strong {s : ℝ} (h : 4 ≤ s) : strengthLabel s = "STRONG" := by
  unfold strengthLabel
  rw [if_neg (not_lt.mpr (by linarith)), if_neg (not_lt.mpr h)]

theorem resultOf_score (G : GoLib) (pw : List Char) (S : Option (List (List Char)))
    (b : Bool) :
    (resultOf G pw S b).ScoreRaw = goRound ((resultOf G pw S b).score * 100) / 100 ∧
      (resultOf G pw S b).Strength = strengthLabel (resultOf G pw S b).score :=
  ⟨rfl, rfl⟩

theorem evaluatePassword_strength_aux (G : GoLib) (p : List Char)
    (S : Option (List (List Char))) (r : Result) (h : evaluatePassword G p S = .ok r) :
    r.Strength = strengthLabel r.score := by
  obtain ⟨-, rfl⟩ := evaluatePassword_ok h
  rfl

/-- C2, amended. Whenever `evaluatePassword` returns a `Result`, `ScoreRaw` is the
unrounded score rounded to two decimals and `Strength` is chosen from the
unrounded score; hence `Strength` is `WEAK` if `ScoreRaw < 1.5`, `MODERATE` if
`1.5 < ScoreRaw < 4.0`, `STRONG` if `ScoreRaw > 4.0`, `WEAK` or `MODERATE` at
`ScoreRaw = 1.5`, and `MODERATE` or `STRONG` at `ScoreRaw = 4.0`. -/
theorem evaluatePassword_strength (G : GoLib) (p : List Char)
    (S : Option (List (List Char))) (r : Result) (h : evaluatePassword G p S = .ok r) :
    r.ScoreRaw = goRound (r.score * 100) / 100 ∧
      r.Strength = strengthLabel r.score ∧
      (r.ScoreRaw < 3 / 2 → r.Strength = "WEAK") ∧
      (3 / 2 < r.ScoreRaw → r.ScoreRaw < 4 → r.Strength = "MODERATE") ∧
      (4 < r.ScoreRaw → r.Strength = "STRONG") ∧
      (r.ScoreRaw = 3 / 2 → r.Strength = "WEAK" ∨ r.Strength = "MODERATE") ∧
      (r.ScoreRaw = 4 → r.Strength = "MODERATE" ∨ r.Strength = "STRONG") := by
  obtain ⟨-, rfl⟩ := evaluatePassword_ok h
  obtain ⟨hraw, hlab⟩ := resultOf_score G (TrimSpace G p) S true
  generalize (resultOf G (TrimSpace G p) S true).score = s at hraw hlab
  generalize (resultOf G (TrimSpace G p) S true).ScoreRaw = R at hraw
  generalize (resultOf G (TrimSpace G p) S true).Strength = L at hlab
  subst hraw hlab
  have lo1 : s < 3 / 2 → goRound (s * 100) / 100 ≤ 3 / 2 := fun hs => by
    have := scoreRaw_le_of_lt s 150 (by norm_num) (by push_cast; linarith)
    push_cast at this
    linarith
  have hi1 : 3 / 2 ≤ s → 3 / 2 ≤ goRound (s * 100) / 100 := fun hs => by
    have := le_scoreRaw_of_le s 150 (by norm_num) (by push_cast; linarith)
    push_cast at this
    linarith
  have lo4 : s < 4 → goRound (s * 100) / 100 ≤ 4 := fun hs => by
    have := scoreRaw_le_of_lt s 400 (by norm_num) (by push_cast; linarith)
    push_cast at this
    linarith
  have hi4 : 4 ≤ s → 4 ≤ goRound (s * 100) / 100 := fun hs => by
    have := le_scoreRaw_of_le s 400 (by norm_num) (by push_cast; linarith)
    push_cast at this
    linarith
  refine ⟨rfl, rfl, ?_, ?_, ?_, ?_, ?_⟩
  · intro hR
    apply strengthLabel_weak
    by_contra hs
    have := hi1 (not_lt.mp hs)
    linarith
  · intro hR1 hR2
    apply strengthLabel_moderate
    · by_contra hs
      have := lo1 (not_le.mp hs)
      linarith
    · by_contra hs
      have := hi4 (not_lt.mp hs)
      linarith
  · intro hR
    apply strengthLabel_strong
    by_contra hs
    have := lo4 (not_le.mp hs)
    linarith
  · intro hR
    have hs4 : s < 4 := by
      by_contra hs
      have := hi4 (not_lt.mp hs)
      linarith
    rcases lt_or_le s (3 / 2) with hs | hs
    · exact Or.inl (strengthLabel_weak hs)
    · exact Or.inr (strengthLabel_moderate hs hs4)
  · intro hR
    have hs1 : 3 / 2 ≤ s := by
      by_contra hs
      have := lo1 (not_le.mp hs)
      linarith
    rcases lt_or_le s 4 with hs | hs
    · exact Or.inl (strengthLabel_moderate hs1 hs)
    · exact Or.inr (strengthLabel_strong hs)

/-- Instance of the label theorem: the password `abcabc`. -/
theorem evaluatePassword_strength_witness :
    evaluatePassword latin1Lib "abcabc".toList none =
        .ok (resultOf latin1Lib "abcabc".toList none true) ∧
      (resultOf latin1Lib "abcabc".toList none true).Strength =
        strengthLabel (resultOf latin1Lib "abcabc".toList none true).score :=
  have h : evaluatePassword latin1Lib "abcabc".toList none =
      .ok (resultOf latin1Lib "abcabc".toList none true) :=
    evaluatePassword_of_periodic none (by decide)
  ⟨h, (evaluatePassword_strength latin1Lib "abcabc".toList none _ h).2.1⟩

theorem le_logb_two (n a b : ℕ) (hb : 0 < b) (h : 2 ^ a ≤ n ^ b) :
    (a : ℝ) / b ≤ Real.logb 2 n := by
  have hbr : (0 : ℝ) < b := by exact_mod_cast hb
  have hl2 : 0 < Real.log 2 := Real.log_pos (by norm_num)
  have hr : (2 : ℝ) ^ a ≤ (n : ℝ) ^ b := by exact_mod_cast h
  have hlog : Real.log ((2 : ℝ) ^ a) ≤ Real.log ((n : ℝ) ^ b) :=
    Real.log_le_log (by positivity) hr
  rw [Real.log_pow, Real.log_pow] at hlog
  rw [Real.logb, div_le_div_iff₀ hbr hl2]
  linarith

theorem logb_two_lt (n a b : ℕ) (hb : 0 < b) (hn : 0 < n) (h : n ^ b < 2 ^ a) :
    Real.logb 2 n < (a : ℝ) / b := by
  have hbr : (0 : ℝ) < b := by exact_mod_cast hb
  have hnr : (0 : ℝ) < n := by exact_mod_cast hn
  have hl2 : 0 < Real.log 2 := Real.log_pos (by norm_num)
  have hr : (n : ℝ) ^ b < (2 : ℝ) ^ a := by exact_mod_cast h
  have hlog : Real.log ((n : ℝ) ^ b) < Real.log ((2 : ℝ) ^ a) :=
    Real.log_lt_log (by positivity) hr
  rw [Real.log_pow, Real.log_pow] at hlog
  rw [Real.logb, div_lt_div_iff₀ hl2 hbr]
  linarith

/-- C2, counterexample. For the password made of seventeen `a`,
`evaluatePassword` returns `ScoreRaw = 1.5` with `Strength = "WEAK"`: the unrounded
score is `17 * log2 26 / 20 - 2.5`, between 1.495 and 1.5. -/
theorem evaluatePassword_rounded_threshold :
    Except.map (fun r => (r.ScoreRaw, r.Strength))
      (evaluatePassword latin1Lib (List.replicate 17 'a') none) = .ok (3 / 2, "WEAK") := by
  rw [evaluatePassword_of_periodic none (by decide)]
  have ht : TrimSpace latin1Lib (List.replicate 17 'a') = List.replicate 17 'a' := by decide
  rw [ht]
  have hlo : (47 : ℝ) / 10 ≤ Real.logb 2 26 := by
    have := le_logb_two 26 47 10 (by norm_num) (by norm_num)
    push_cast at this
    exact this
  have hhi : Real.logb 2 26 < (80 : ℝ) / 17 := by
    have := logb_two_lt 26 80 17 (by norm_num) (by norm_num) (by norm_num)
    push_cast at this
    exact this
  have hcs : charsetSize latin1Lib (List.replicate 17 'a') = 26 := by decide
  have hlen : len (List.replicate 17 'a') = 17 := by decide
  have hbe : bruteforceEntropy latin1Lib (List.replicate 17 'a') = 17 * Real.logb 2 26 := by
    unfold bruteforceEntropy
    simp only [hcs, hlen]
    norm_num
  have hscore : (resultOf latin1Lib (List.replicate 17 'a') none true).score =
      17 * Real.logb 2 26 / 20 - 5 / 2 := by
    have hU : (List.replicate 17 'a').any (IsUpper latin1Lib) = false := by decide
    have hL : (List.replicate 17 'a').any (IsLower latin1Lib) = true := by decide
    have hD : (List.replicate 17 'a').any (IsDigit latin1Lib) = false := by decide
    have hS : (List.replicate 17 'a').any
        (fun r => !IsLetter latin1Lib r && !IsDigit latin1Lib r) = false := by decide
    have hC : inCommonSets (List.replicate 17 'a') none = false := by decide
    have hQ : hasSequentialChars (List.replicate 17 'a') 4 = false := by decide
    have hO : isOnlyDigitsOrLetters latin1Lib (List.replicate 17 'a') = true := by decide
    have hmin : min (17 * Real.logb 2 26 / 20) 5 = 17 * Real.logb 2 26 / 20 :=
      min_eq_left (by linarith)
    simp only [Result.score, resultOf, hU, hL, hD, hS, hC, hQ, hO, hbe, rawScore, hmin]
    norm_num
    ring
  obtain ⟨hraw, hlab⟩ := resultOf_score latin1Lib (List.replicate 17 'a') none true
  rw [hscore] at hraw hlab
  have hround : goRound ((17 * Real.logb 2 26 / 20 - 5 / 2) * 100) = 150 := by
    unfold goRound
    rw [if_pos (by linarith)]
    have hf : ⌊(17 * Real.logb 2 26 / 20 - 5 / 2) * 100 + 1 / 2⌋ = 150 := by
      rw [Int.floor_eq_iff]
      constructor
      · push_cast
        linarith
      · push_cast
        linarith
    rw [hf]
    norm_num
  rw [hround] at hraw
  rw [strengthLabel_weak (by linarith)] at hlab
  simp only [Except.map, hraw, hlab]
  norm_num

/-- The score as a sum: the capped entropy term, the bonuses and the penalties. -/
theorem rawScore_eq_sum (be : ℝ) (u l d sy c rep sq odl : Bool) :
    rawScore be u l d sy c rep sq odl =
      min (be / 20) 5 + (if u && l then 1 else 0) + (if d then 1 else 0) +
        (if sy then 1 else 0) - (if c then 5 else 0) - (if rep then 2 else 0) -
        (if sq then 2 else 0) - (if odl then 1 / 2 else 0) := by
  unfold rawScore
  generalize min (be / 20) 5 = m
  cases u <;> cases l <;> cases d <;> cases sy <;> cases c <;> cases rep <;> cases sq <;>
    cases odl <;>
    simp only [Bool.and_self, Bool.and_true, Bool.and_false, Bool.false_eq_true, if_true,
      if_false] <;>
    ring

theorem rawScore_common_le (be : ℝ) (u l d sy rep sq odl : Bool) :
    rawScore be u l d sy true rep sq odl ≤ 3 := by
  have hmin : min (be / 20) 5 ≤ 5 := min_le_right _ _
  have h1 : (if (u && l) then (1 : ℝ) else 0) ≤ 1 := by split_ifs <;> norm_num
  have h2 : (if d then (1 : ℝ) else 0) ≤ 1 := by split_ifs <;> norm_num
  have h3 : (if sy then (1 : ℝ) else 0) ≤ 1 := by split_ifs <;> norm_num
  have h5 : (0 : ℝ) ≤ (if rep then 2 else 0) := by split_ifs <;> norm_num
  have h6 : (0 : ℝ) ≤ (if sq then 2 else 0) := by split_ifs <;> norm_num
  have h7 : (0 : ℝ) ≤ (if odl then 1 / 2 else 0) := by split_ifs <;> norm_num
  rw [rawScore_eq_sum]
  simp only [if_true]
  linarith

/-- C7, amended. Whenever `evaluatePassword` returns a `Result` whose `IsCommon`
is true, its `Strength` is `WEAK` or `MODERATE`, never `STRONG`. -/
theorem evaluatePassword_common_not_strong (G : GoLib) (p : List Char)
    (S : Option (List (List Char))) (r : Result) (h : evaluatePassword G p S = .ok r)
    (hc : r.IsCommon = true) :
    (r.Strength = "WEAK" ∨ r.Strength = "MODERATE") ∧ r.Strength ≠ "STRONG" := by
  have hlab := (evaluatePassword_strength_aux G p S r h)
  have hs : r.score ≤ 3 := by
    unfold Result.score
    rw [hc]
    exact rawScore_common_le _ _ _ _ _ _ _ _
  have hor : r.Strength = "WEAK" ∨ r.Strength = "MODERATE" := by
    rw [hlab]
    rcases lt_or_le r.score (3 / 2) with h1 | h1
    · exact Or.inl (strengthLabel_weak h1)
    · exact Or.inr (strengthLabel_moderate h1 (by linarith))
  refine ⟨hor, ?_⟩
  rcases hor with h1 | h1 <;> rw [h1] <;> decide

theorem evaluatePassword_111111 :
    evaluatePassword latin1Lib "111111".toList none =
      .ok (resultOf latin1Lib "111111".toList none true) :=
  evaluatePassword_of_periodic none (by decide)

/-- Instance of the common-password theorem: the built-in entry `111111`. -/
theorem evaluatePassword_common_not_strong_witness :
    evaluatePassword latin1Lib "111111".toList none =
        .ok (resultOf latin1Lib "111111".toList none true) ∧
      (resultOf latin1Lib "111111".toList none true).IsCommon = true ∧
      ((resultOf latin1Lib "111111".toList none true).Strength = "WEAK" ∨
        (resultOf latin1Lib "111111".toList none true).Strength = "MODERATE") ∧
      (resultOf latin1Lib "111111".toList none true).Strength ≠ "STRONG" :=
  ⟨evaluatePassword_111111, by decide,
    evaluatePassword_common_not_strong latin1Lib "111111".toList none _
      evaluatePassword_111111 (by decide)⟩

/-- C7, counterexample. For the password `Ab1!` repeated five times
`evaluatePassword` returns `RepeatedSequence = true` and `Strength = "STRONG"`: the
entropy term is capped at 5, the three bonuses add 3 and the repetition penalty
takes 2, which leaves a score of 6. -/
theorem evaluatePassword_repeated_strong :
    Except.map (fun r => (r.IsCommon, r.RepeatedSequence, r.Sequential, r.Strength))
      (evaluatePassword latin1Lib "Ab1!Ab1!Ab1!Ab1!Ab1!".toList none) =
        .ok (false, true, false, "STRONG") := by
  rw [evaluatePassword_of_periodic none (by decide)]
  have ht : TrimSpace latin1Lib "Ab1!Ab1!Ab1!Ab1!Ab1!".toList =
      "Ab1!Ab1!Ab1!Ab1!Ab1!".toList := by decide
  rw [ht]
  have hlo : (6 : ℝ) ≤ Real.logb 2 94 := by
    have := le_logb_two 94 6 1 (by norm_num) (by norm_num)
    push_cast at this
    linarith
  have hcs : charsetSize latin1Lib "Ab1!Ab1!Ab1!Ab1!Ab1!".toList = 94 := by decide
  have hlen : len "Ab1!Ab1!Ab1!Ab1!Ab1!".toList = 20 := by decide
  have hbe : bruteforceEntropy latin1Lib "Ab1!Ab1!Ab1!Ab1!Ab1!".toList =
      20 * Real.logb 2 94 := by
    unfold bruteforceEntropy
    simp only [hcs, hlen]
    norm_num
  have hU : "Ab1!Ab1!Ab1!Ab1!Ab1!".toList.any (IsUpper latin1Lib) = true := by decide
  have hL : "Ab1!Ab1!Ab1!Ab1!Ab1!".toList.any (IsLower latin1Lib) = true := by decide
  have hD : "Ab1!Ab1!Ab1!Ab1!Ab1!".toList.any (IsDigit latin1Lib) = true := by decide
  have hS : "Ab1!Ab1!Ab1!Ab1!Ab1!".toList.any
      (fun r => !IsLetter latin1Lib r && !IsDigit latin1Lib r) = true := by decide
  have hC : inCommonSets "Ab1!Ab1!Ab1!Ab1!Ab1!".toList none = false := by decide
  have hQ : hasSequentialChars "Ab1!Ab1!Ab1!Ab1!Ab1!".toList 4 = false := by decide
  have hO : isOnlyDigitsOrLetters latin1Lib "Ab1!Ab1!Ab1!Ab1!Ab1!".toList = false := by
    decide
  have hscore : (resultOf latin1Lib "Ab1!Ab1!Ab1!Ab1!Ab1!".toList none true).score = 6 := by
    have hmin : min (20 * Real.logb 2 94 / 20) 5 = 5 := min_eq_right (by linarith)
    simp only [Result.score, resultOf, hU, hL, hD, hS, hC, hQ, hO, hbe, rawScore, hmin]
    norm_num
  have hlab := (resultOf_score latin1Lib "Ab1!Ab1!Ab1!Ab1!Ab1!".toList none true).2
  rw [hscore, strengthLabel_strong (by norm_num)] at hlab
  have hC2 : (resultOf latin1Lib "Ab1!Ab1!Ab1!Ab1!Ab1!".toList none true).IsCommon = false := hC
  have hQ2 : (resultOf latin1Lib "Ab1!Ab1!Ab1!Ab1!Ab1!".toList none true).Sequential = false := hQ
  have hR2 : (resultOf latin1Lib "Ab1!Ab1!Ab1!Ab1!Ab1!".toList none true).RepeatedSequence =
      true := rfl
  simp only [Except.map, hlab, hC2, hQ2, hR2]

/-! ## Character classes and `charsetSize` -/

theorem foldl_charsetStep (G : GoLib) (pw : List Char) (f : ClassFlags) :
    pw.foldl (charsetStep G) f =
      { hasLower := f.hasLower || pw.any (IsLower G)
        hasUpper := f.hasUpper || pw.any (fun r => !IsLower G r && IsUpper G r)
        hasDigit := f.hasDigit ||
          pw.any (fun r => !IsLower G r && !IsUpper G r && IsDigit G r)
        hasSymbol := f.hasSymbol ||
          pw.any (fun r => !IsLower G r && !IsUpper G r && !IsDigit G r) } := by
  induction pw generalizing f with
  | nil => simp
  | cons c t ih =>
    rw [List.foldl_cons, ih]
    unfold charsetStep
    cases hl : IsLower G c <;> cases hu : IsUpper G c <;> cases hd : IsDigit G c <;>
      simp [hl, hu, hd, Bool.or_assoc]

theorem charsetSize_eq (G : GoLib) (pw : List Char) :
    charsetSize G pw =
      (if pw.any (IsLower G) then 26 else 0) +
        (if pw.any (fun r => !IsLower G r && IsUpper G r) then 26 else 0) +
        (if pw.any (fun r => !IsLower G r && !IsUpper G r && IsDigit G r) then 10 else 0) +
        (if pw.any (fun r => !IsLower G r && !IsUpper G r && !IsDigit G r) then 32 else 0) := by
  unfold charsetSize
  simp only [foldl_charsetStep, Bool.false_or]

theorem charsetSize_le (G : GoLib) (pw : List Char) : charsetSize G pw ≤ 94 := by
  rw [charsetSize_eq]
  split_ifs <;> omega

theorem charsetSize_ge_of_ne_nil (G : GoLib) {pw : List Char} (h : pw ≠ []) :
    10 ≤ charsetSize G pw := by
  obtain ⟨c, t, rfl⟩ := List.exists_cons_of_ne_nil h
  rw [charsetSize_eq]
  simp only [List.any_cons]
  by_cases hl : IsLower G c = true <;> by_cases hu : IsUpper G c = true <;>
    by_cases hd : IsDigit G c = true <;>
    simp only [hl, hu, hd, Bool.not_true, Bool.not_false, Bool.true_or, Bool.false_or,
      Bool.true_and, Bool.false_and, Bool.and_true, Bool.and_false, if_true,
      Bool.not_eq_true] <;>
    split_ifs <;> omega

theorem bruteforceEntropy_nil (G : GoLib) : bruteforceEntropy G [] = 0 := by
  unfold bruteforceEntropy
  have h : charsetSize G [] = 0 := rfl
  simp [h]

theorem len_pos_of_ne_nil {pw : List Char} (h : pw ≠ []) : 0 < len pw := by
  have := runeCount_le_len pw
  have hl : 0 < pw.length := List.length_pos.mpr h
  unfold runeCount at this
  omega

theorem bruteforceEntropy_pos (G : GoLib) {pw : List Char} (h : pw ≠ []) :
    0 < bruteforceEntropy G pw := by
  have hcs := charsetSize_ge_of_ne_nil G h
  have hcsr : (10 : ℝ) ≤ (charsetSize G pw : ℝ) := by exact_mod_cast hcs
  have hlen : (0 : ℝ) < (len pw : ℝ) := by exact_mod_cast len_pos_of_ne_nil h
  unfold bruteforceEntropy
  simp only
  rw [if_neg (by linarith)]
  exact mul_pos hlen (Real.logb_pos (by norm_num) (by linarith))

theorem bruteforceEntropy_nonneg (G : GoLib) (pw : List Char) :
    0 ≤ bruteforceEntropy G pw := by
  by_cases h : pw = []
  · rw [h, bruteforceEntropy_nil]
  · exact le_of_lt (bruteforceEntropy_pos G h)

/-- C18. `charsetSize pw` lies between 0 and 94 and is a sum of a subset of the
bucket sizes 26, 26, 10, 32; it is 0 exactly for the empty string, and
`bruteforceEntropy pw` is 0 exactly for the empty string. -/
theorem charsetSize_range :
    ∀ (G : GoLib) (pw : List Char),
      0 ≤ charsetSize G pw ∧ charsetSize G pw ≤ 94 ∧
      (∃ lower upper digit symbol : Bool,
        charsetSize G pw = (if lower then 26 else 0) + (if upper then 26 else 0) +
          (if digit then 10 else 0) + (if symbol then 32 else 0)) ∧
      (charsetSize G pw = 0 ↔ pw = []) ∧
      (bruteforceEntropy G pw = 0 ↔ pw = []) := by
  intro G pw
  refine ⟨Nat.zero_le _, charsetSize_le G pw, ?_, ?_, ?_⟩
  · exact ⟨_, _, _, _, charsetSize_eq G pw⟩
  · constructor
    · intro h0
      by_contra hne
      have := charsetSize_ge_of_ne_nil G hne
      omega
    · rintro rfl
      rfl
  · constructor
    · intro h0
      by_contra hne
      have := bruteforceEntropy_pos G hne
      linarith
    · rintro rfl
      exact bruteforceEntropy_nil G

/-! ## `isOnlyDigitsOrLetters` -/

theorem foldl_onlyDigitsOrLetters (G : GoLib) (pw : List Char) (st : Bool × Bool) :
    pw.foldl
      (fun (st : Bool × Bool) r =>
        (if !IsDigit G r then false else st.1, if !IsLetter G r then false else st.2)) st =
      (st.1 && pw.all (IsDigit G), st.2 && pw.all (IsLetter G)) := by
  induction pw generalizing st with
  | nil => simp
  | cons c t ih =>
    rw [List.foldl_cons, ih]
    cases hd : IsDigit G c <;> cases hl : IsLetter G c <;> simp [hd, hl]

theorem isOnlyDigitsOrLetters_eq (G : GoLib) (pw : List Char) :
    isOnlyDigitsOrLetters G pw = (pw.all (IsDigit G) || pw.all (IsLetter G)) := by
  unfold isOnlyDigitsOrLetters
  simp only [foldl_onlyDigitsOrLetters, Bool.true_and]

/-- C13. `isOnlyDigitsOrLetters pw` is `true` exactly when every character of `pw`
is a digit or every character of `pw` is a letter; it is `true` for the empty
string and `false` for a string that holds a character that is no digit and a
character that is no letter (a letter next to a digit, or one character that is
neither). -/
theorem isOnlyDigitsOrLetters_iff :
    (∀ (G : GoLib) (pw : List Char), isOnlyDigitsOrLetters G pw = true ↔
      ((∀ r ∈ pw, IsDigit G r = true) ∨ (∀ r ∈ pw, IsLetter G r = true))) ∧
    (∀ G : GoLib, isOnlyDigitsOrLetters G [] = true) ∧
    (∀ (G : GoLib) (pw : List Char) (r1 r2 : Char), r1 ∈ pw → r2 ∈ pw →
      IsDigit G r1 = false → IsLetter G r2 = false → isOnlyDigitsOrLetters G pw = false) ∧
    isOnlyDigitsOrLetters latin1Lib "2024".toList = true ∧
    isOnlyDigitsOrLetters latin1Lib "abcXYZ".toList = true ∧
    isOnlyDigitsOrLetters latin1Lib "abc1".toList = false ∧
    isOnlyDigitsOrLetters latin1Lib "ab-cd".toList = false := by
  have main : ∀ (G : GoLib) (pw : List Char), isOnlyDigitsOrLetters G pw = true ↔
      ((∀ r ∈ pw, IsDigit G r = true) ∨ (∀ r ∈ pw, IsLetter G r = true)) := by
    intro G pw
    rw [isOnlyDigitsOrLetters_eq, Bool.or_eq_true, List.all_eq_true, List.all_eq_true]
  refine ⟨main, fun G => rfl, ?_, by decide, by decide, by decide, by decide⟩
  intro G pw r1 r2 h1 h2 hd hl
  rw [Bool.eq_false_iff]
  intro ht
  rcases (main G pw).mp ht with h | h
  · have := h r1 h1
    rw [hd] at this
    cases this
  · have := h r2 h2
    rw [hl] at this
    cases this

/-! ## What `hasRepeatedSequence` returns -/

theorem periodicLoop_iff (b : List Nat) :
    periodicLoop b = true ↔
      ∃ sl, 1 ≤ sl ∧ sl ≤ b.length / 2 ∧ b.length % sl = 0 ∧
        (List.replicate (b.length / sl) (b.take sl)).flatten = b := by
  unfold periodicLoop
  rw [List.any_eq_true]
  constructor
  · rintro ⟨sl, hmem, hrep⟩
    rw [List.mem_range'_1] at hmem
    unfold repeatsPrefix at hrep
    simp only [Bool.and_eq_true, beq_iff_eq] at hrep
    exact ⟨sl, hmem.1, by omega, hrep.1, hrep.2⟩
  · rintro ⟨sl, h1, h2, h3, h4⟩
    refine ⟨sl, ?_, ?_⟩
    · rw [List.mem_range'_1]
      omega
    · unfold repeatsPrefix
      simp only [Bool.and_eq_true, beq_iff_eq]
      exact ⟨h3, h4⟩

theorem hasRepeatedSequence_ok_true_iff (G : GoLib) (pw : List Char) :
    hasRepeatedSequence G pw = .ok true ↔ periodicLoop (utf8Bytes pw) = true := by
  rw [hasRepeatedSequence_eq]
  by_cases h : periodicLoop (utf8Bytes pw) = true
  · simp [h]
  · simp [h]

/-- C17. If `hasRepeatedSequence pw` returns `true` then the bytes of `pw` are a
proper prefix of length `sl` (`1 ≤ sl ≤ len/2`, `sl` dividing `len`) repeated
`len/sl` times.  The function never returns `false`: on `abca` and on the
one-character string `a`, which have neither shape, it panics. -/
theorem hasRepeatedSequence_true_shape :
    (∀ (G : GoLib) (pw : List Char), hasRepeatedSequence G pw = .ok true →
      ∃ sl, 1 ≤ sl ∧ sl ≤ len pw / 2 ∧ len pw % sl = 0 ∧
        (List.replicate (len pw / sl) ((utf8Bytes pw).take sl)).flatten = utf8Bytes pw) ∧
    (∀ (G : GoLib) (pw : List Char), hasRepeatedSequence G pw = .ok true ∨
      hasRepeatedSequence G pw = .error (.regexpCompile runPattern)) ∧
    (∀ G : GoLib, hasRepeatedSequence G "abca".toList = .error (.regexpCompile runPattern)) ∧
    (∀ G : GoLib, hasRepeatedSequence G "a".toList = .error (.regexpCompile runPattern)) := by
  refine ⟨?_, ?_, ?_, ?_⟩
  · intro G pw h
    exact (periodicLoop_iff _).mp ((hasRepeatedSequence_ok_true_iff G pw).mp h)
  · intro G pw
    rw [hasRepeatedSequence_eq]
    by_cases h : periodicLoop (utf8Bytes pw) = true
    · exact Or.inl (by rw [if_pos h])
    · exact Or.inr (by rw [if_neg h])
  · intro G
    rw [hasRepeatedSequence_eq]
    have hp : periodicLoop (utf8Bytes "abca".toList) = false := by decide
    rw [hp]
    rfl
  · intro G
    rw [hasRepeatedSequence_eq]
    have hp : periodicLoop (utf8Bytes "a".toList) = false := by decide
    rw [hp]
    rfl

/-! ## One character repeated -/

theorem any_replicate_succ (f : Char → Bool) (c : Char) (n : Nat) :
    (List.replicate (n + 1) c).any f = f c := by
  induction n with
  | zero => simp
  | succ k ih =>
    rw [List.replicate_succ, List.any_cons, ih, Bool.or_self]

theorem dropWhile_replicate (f : Char → Bool) (c : Char) (n : Nat) (h : f c = false) :
    (List.replicate n c).dropWhile f = List.replicate n c := by
  cases n with
  | zero => rfl
  | succ k => rw [List.replicate_succ, List.dropWhile_cons, h]; rfl

theorem trimSpace_replicate (G : GoLib) (c : Char) (n : Nat) (h : IsSpace G c = false) :
    TrimSpace G (List.replicate n c) = List.replicate n c := by
  unfold TrimSpace
  rw [dropWhile_replicate _ c n h, List.reverse_replicate, dropWhile_replicate _ c n h,
    List.reverse_replicate]

theorem replicate_eq_flatten (c : Char) (n : Nat) :
    List.replicate n c = (List.replicate n [c]).flatten := by
  induction n with
  | zero => rfl
  | succ k ih =>
    rw [List.replicate_succ, List.replicate_succ, List.flatten_cons, ← ih]
    rfl

theorem periodicLoop_replicate (c : Char) (n : Nat) (hn : 2 ≤ n) :
    periodicLoop (utf8Bytes (List.replicate n c)) = true := by
  rw [replicate_eq_flatten, utf8Bytes_repeat]
  exact periodicLoop_repeat _ n (utf8Bytes_ne_nil (by simp)) hn

/-- The bucket that the `switch` of `charsetSize` counts for one code point. -/
theorem charsetSize_replicate (G : GoLib) (c : Char) (n : Nat) :
    charsetSize G (List.replicate (n + 1) c) =
      if IsLower G c then 26 else if IsUpper G c then 26 else if IsDigit G c then 10
      else 32 := by
  rw [charsetSize_eq]
  simp only [any_replicate_succ]
  by_cases hl : IsLower G c = true <;> by_cases hu : IsUpper G c = true <;>
    by_cases hd : IsDigit G c = true <;>
    simp [hl, hu, hd]

/-- C11, amended. For every character `c` that is not white space and every
`n ≥ 2`, `evaluatePassword` on `c` repeated `n` times returns a `Result` whose
`CharsetSize` is the bucket size of the single class of `c` (26 for a lowercase
letter, else 26 for an uppercase letter, else 10 for a digit, else 32) and whose
`RepeatedSequence` is true. -/
theorem evaluatePassword_single_char (G : GoLib) (c : Char) (n : Nat)
    (S : Option (List (List Char))) (hc : IsSpace G c = false) (hn : 2 ≤ n) :
    Except.map (fun r => (r.CharsetSize, r.RepeatedSequence))
        (evaluatePassword G (List.replicate n c) S) =
      .ok (if IsLower G c then 26 else if IsUpper G c then 26 else if IsDigit G c then 10
        else 32, true) := by
  have hp : periodicLoop (utf8Bytes (TrimSpace G (List.replicate n c))) = true := by
    rw [trimSpace_replicate G c n hc]
    exact periodicLoop_replicate c n hn
  rw [evaluatePassword_of_periodic S hp, trimSpace_replicate G c n hc]
  obtain ⟨k, rfl⟩ : ∃ k, n = k + 1 := ⟨n - 1, by omega⟩
  have hcs : (resultOf G (List.replicate (k + 1) c) S true).CharsetSize =
      charsetSize G (List.replicate (k + 1) c) := rfl
  have hrep : (resultOf G (List.replicate (k + 1) c) S true).RepeatedSequence = true := rfl
  simp only [Except.map, hcs, hrep, charsetSize_replicate]

/-- Instance of the single-character theorem: `aaaa` gives `CharsetSize = 26` and
`RepeatedSequence = true`. -/
theorem evaluatePassword_single_char_witness :
    Except.map (fun r => (r.CharsetSize, r.RepeatedSequence))
        (evaluatePassword latin1Lib "aaaa".toList none) = .ok (26, true) :=
  evaluatePassword_single_char latin1Lib 'a' 4 none (by decide) (by decide)

/-- C11, counterexample. On the one-character password `a` the loop of
`hasRepeatedSequence` finds no repetition and `evaluatePassword` returns no
`Result`, so `RepeatedSequence = true` is not reported for `n = 1`; the same holds
for a space repeated four times, which is empty after trimming. -/
theorem evaluatePassword_one_char_no_result :
    periodicLoop (utf8Bytes (TrimSpace latin1Lib "a".toList)) = false ∧
      evaluatePassword latin1Lib "a".toList none = .error (.regexpCompile runPattern) ∧
      TrimSpace latin1Lib (List.replicate 4 ' ') = [] ∧
      evaluatePassword latin1Lib (List.replicate 4 ' ') none =
        .error (.regexpCompile runPattern) :=
  ⟨by decide, evaluatePassword_of_not_periodic none (by decide), by decide,
    evaluatePassword_of_not_periodic none (by decide)⟩

/-! ## All four classes -/

/-- C12. On the password `Tr0ub4dor&3XyZ!` `evaluatePassword` panics and reports no
`Strength`.  The fields it would assemble, had `hasRepeatedSequence` returned
`false`, have the four class flags true, `IsCommon` and `Sequential` false and the
label `STRONG`. -/
theorem evaluatePassword_troubador_panics :
    (∀ (G : GoLib) (S : Option (List (List Char))),
      evaluatePassword G "Tr0ub4dor&3XyZ!".toList S = .error (.regexpCompile runPattern)) ∧
    (resultOf latin1Lib "Tr0ub4dor&3XyZ!".toList none false).HasUpper = true ∧
    (resultOf latin1Lib "Tr0ub4dor&3XyZ!".toList none false).HasLower = true ∧
    (resultOf latin1Lib "Tr0ub4dor&3XyZ!".toList none false).HasDigit = true ∧
    (resultOf latin1Lib "Tr0ub4dor&3XyZ!".toList none false).HasSymbol = true ∧
    (resultOf latin1Lib "Tr0ub4dor&3XyZ!".toList none false).IsCommon = false ∧
    (resultOf latin1Lib "Tr0ub4dor&3XyZ!".toList none false).Sequential = false ∧
    (resultOf latin1Lib "Tr0ub4dor&3XyZ!".toList none false).Strength = "STRONG" := by
  have hU : "Tr0ub4dor&3XyZ!".toList.any (IsUpper latin1Lib) = true := by decide
  have hL : "Tr0ub4dor&3XyZ!".toList.any (IsLower latin1Lib) = true := by decide
  have hD : "Tr0ub4dor&3XyZ!".toList.any (IsDigit latin1Lib) = true := by decide
  have hS : "Tr0ub4dor&3XyZ!".toList.any
      (fun r => !IsLetter latin1Lib r && !IsDigit latin1Lib r) = true := by decide
  have hC : inCommonSets "Tr0ub4dor&3XyZ!".toList none = false := by decide
  have hQ : hasSequentialChars "Tr0ub4dor&3XyZ!".toList 4 = false := by decide
  have hO : isOnlyDigitsOrLetters latin1Lib "Tr0ub4dor&3XyZ!".toList = false := by decide
  refine ⟨?_, hU, hL, hD, hS, hC, hQ, ?_⟩
  · intro G S
    apply evaluatePassword_of_not_periodic
    have ht : TrimSpace G "Tr0ub4dor&3XyZ!".toList = "Tr0ub4dor&3XyZ!".toList := rfl
    rw [ht]
    decide
  · have hbe := bruteforceEntropy_nonneg latin1Lib "Tr0ub4dor&3XyZ!".toList
    have hmin : 0 ≤ min (bruteforceEntropy latin1Lib "Tr0ub4dor&3XyZ!".toList / 20) 5 :=
      le_min (by linarith) (by norm_num)
    have hlab := (resultOf_score latin1Lib "Tr0ub4dor&3XyZ!".toList none false).2
    rw [hlab]
    apply strengthLabel_strong
    have hscore : (resultOf latin1Lib "Tr0ub4dor&3XyZ!".toList none false).score =
        min (bruteforceEntropy latin1Lib "Tr0ub4dor&3XyZ!".toList / 20) 5 + 3 := by
      simp only [Result.score, resultOf, hU, hL, hD, hS, hC, hQ, hO, rawScore_eq_sum]
      norm_num
      ring
    rw [hscore]
    have h5 : min (bruteforceEntropy latin1Lib "Tr0ub4dor&3XyZ!".toList / 20) 5 ≤ 5 :=
      min_le_right _ _
    have hlen : len "Tr0ub4dor&3XyZ!".toList = 15 := by decide
    have hcs : charsetSize latin1Lib "Tr0ub4dor&3XyZ!".toList = 94 := by decide
    have hlo : (6 : ℝ) ≤ Real.logb 2 94 := by
      have := le_logb_two 94 6 1 (by norm_num) (by norm_num)
      push_cast at this
      linarith
    have hbe2 : bruteforceEntropy latin1Lib "Tr0ub4dor&3XyZ!".toList = 15 * Real.logb 2 94 := by
      unfold bruteforceEntropy
      simp only [hcs, hlen]
      norm_num
    have h1 : 1 ≤ min (bruteforceEntropy latin1Lib "Tr0ub4dor&3XyZ!".toList / 20) 5 := by
      rw [hbe2]
      exact le_min (by linarith) (by norm_num)
    linarith

/-! ## `CharsetSize` and the class flags -/

theorem any_congr_mem (f g : Char → Bool) (l : List Char) (h : ∀ c ∈ l, f c = g c) :
    l.any f = l.any g := by
  induction l with
  | nil => rfl
  | cons a t ih =>
    rw [List.any_cons, List.any_cons, h a (List.mem_cons_self a t),
      ih (fun c hc => h c (List.mem_cons_of_mem a hc))]

theorem switch_eq_flags (G : GoLib) (c : Char) (h : flagCount G c = 1) :
    (!IsLower G c && IsUpper G c) = IsUpper G c ∧
      (!IsLower G c && !IsUpper G c && IsDigit G c) = IsDigit G c ∧
      (!IsLower G c && !IsUpper G c && !IsDigit G c) = (!IsLetter G c && !IsDigit G c) := by
  unfold flagCount at h
  cases hl : IsLower G c <;> cases hu : IsUpper G c <;> cases hd : IsDigit G c <;>
    cases ht : IsLetter G c <;> simp [hl, hu, hd, ht] at h ⊢

set_option maxRecDepth 100000 in
theorem latin1_flagCount (G : GoLib) (c : Char) (h : c.toNat ≤ 0xFF)
    (ha : c.toNat ≠ 0xAA) (hb : c.toNat ≠ 0xBA) : flagCount G c = 1 := by
  have key : ∀ v : Nat, v < 256 → v ≠ 0xAA → v ≠ 0xBA →
      (if latin1Upper v then 1 else 0) + (if latin1Lower v then 1 else 0) +
        (if (0x30 ≤ v && v ≤ 0x39) then 1 else 0) +
        (if !latin1Letter v && !(0x30 ≤ v && v ≤ 0x39) then 1 else 0) = 1 := by
    decide
  unfold flagCount IsUpper IsLower IsDigit IsLetter
  simp only [if_pos h]
  exact key c.toNat (by omega) ha hb

/-- Where the flag loop of `evaluatePassword` and the `switch` of `charsetSize`
agree, that is, when every character of the trimmed password sets exactly one of
the four flags, the `CharsetSize` of a returned `Result` is the sum of the bucket
sizes over its flags.  Every Latin-1 character other than U+00AA and U+00BA sets
exactly one flag. -/
theorem evaluatePassword_charsetSize_flags (G : GoLib) (p : List Char)
    (S : Option (List (List Char))) (r : Result) (h : evaluatePassword G p S = .ok r)
    (hone : ∀ c ∈ TrimSpace G p, flagCount G c = 1) :
    r.CharsetSize = (if r.HasLower then 26 else 0) + (if r.HasUpper then 26 else 0) +
        (if r.HasDigit then 10 else 0) + (if r.HasSymbol then 32 else 0) ∧
      r.HasSymbol = (TrimSpace G p).any (fun c => !IsLetter G c && !IsDigit G c) ∧
      (∀ c : Char, c.toNat ≤ 0xFF → c.toNat ≠ 0xAA → c.toNat ≠ 0xBA → flagCount G c = 1) := by
  obtain ⟨-, rfl⟩ := evaluatePassword_ok h
  refine ⟨?_, rfl, latin1_flagCount G⟩
  have e1 := any_congr_mem (fun c => !IsLower G c && IsUpper G c) (IsUpper G) _
    (fun c hc => (switch_eq_flags G c (hone c hc)).1)
  have e2 := any_congr_mem (fun c => !IsLower G c && !IsUpper G c && IsDigit G c)
    (IsDigit G) _ (fun c hc => (switch_eq_flags G c (hone c hc)).2.1)
  have e3 := any_congr_mem (fun c => !IsLower G c && !IsUpper G c && !IsDigit G c)
    (fun c => !IsLetter G c && !IsDigit G c) _
    (fun c hc => (switch_eq_flags G c (hone c hc)).2.2)
  show charsetSize G (TrimSpace G p) = _
  rw [charsetSize_eq, e1, e2, e3]
  rfl

/-- C14. For the password `ªª` (U+00AA twice, a letter that is neither uppercase
nor lowercase) `evaluatePassword` returns `CharsetSize = 32` with `HasLower`,
`HasUpper`, `HasDigit` and `HasSymbol` all false: the `switch` of `charsetSize`
counts the character in the symbol bucket, the flag loop of `evaluatePassword`
sets no flag for it, and `CharsetSize` is not the sum over the flags. -/
theorem evaluatePassword_caseless_letter :
    Except.map
        (fun r => (r.CharsetSize, r.HasLower, r.HasUpper, r.HasDigit, r.HasSymbol))
        (evaluatePassword latin1Lib "ªª".toList none) =
      .ok (32, false, false, false, false) := by
  rw [evaluatePassword_of_periodic none (by decide)]
  have ht : TrimSpace latin1Lib "ªª".toList = "ªª".toList := by decide
  rw [ht]
  have h1 : (resultOf latin1Lib "ªª".toList none true).CharsetSize = 32 := by
    show charsetSize latin1Lib "ªª".toList = 32
    decide
  have h2 : (resultOf latin1Lib "ªª".toList none true).HasLower = false := by
    show "ªª".toList.any (IsLower latin1Lib) = false
    decide
  have h3 : (resultOf latin1Lib "ªª".toList none true).HasUpper = false := by
    show "ªª".toList.any (IsUpper latin1Lib) = false
    decide
  have h4 : (resultOf latin1Lib "ªª".toList none true).HasDigit = false := by
    show "ªª".toList.any (IsDigit latin1Lib) = false
    decide
  have h5 : (resultOf latin1Lib "ªª".toList none true).HasSymbol = false := by
    show "ªª".toList.any (fun r => !IsLetter latin1Lib r && !IsDigit latin1Lib r) = false
    decide
  simp only [Except.map, h1, h2, h3, h4, h5]

/-! ## Trimming -/

theorem dropWhile_head_not (f : Char → Bool) (s : List Char) (a : Char) (t : List Char)
    (h : s.dropWhile f = a :: t) : f a = false := by
  induction s with
  | nil => cases h
  | cons b u ih =>
    rw [List.dropWhile_cons] at h
    by_cases hb : f b = true
    · rw [if_pos hb] at h
      exact ih h
    · rw [if_neg hb] at h
      obtain ⟨rfl, -⟩ := List.cons.inj h
      simpa using hb

theorem dropWhile_of_head_not (f : Char → Bool) (l : List Char)
    (h : ∀ a t, l = a :: t → f a = false) : l.dropWhile f = l := by
  cases l with
  | nil => rfl
  | cons a t => rw [List.dropWhile_cons, h a t rfl]; rfl

theorem dropWhile_dropWhile (f : Char → Bool) (s : List Char) :
    (s.dropWhile f).dropWhile f = s.dropWhile f :=
  dropWhile_of_head_not f _ (fun a t h => dropWhile_head_not f s a t h)

theorem head_of_append_eq_cons (u v : List Char) (a : Char) (t : List Char)
    (hu : u ≠ []) (h : u ++ v = a :: t) : ∃ u1, u = a :: u1 := by
  cases u with
  | nil => exact absurd rfl hu
  | cons b u1 =>
    rw [List.cons_append] at h
    obtain ⟨rfl, -⟩ := List.cons.inj h
    exact ⟨u1, rfl⟩

theorem dropWhile_suffix_split (f : Char → Bool) (l : List Char) :
    ∃ d, l = d ++ l.dropWhile f := by
  induction l with
  | nil => exact ⟨[], rfl⟩
  | cons b u ih =>
    rw [List.dropWhile_cons]
    by_cases hb : f b = true
    · rw [if_pos hb]
      obtain ⟨d, hd⟩ := ih
      exact ⟨b :: d, by rw [List.cons_append, ← hd]⟩
    · rw [if_neg hb]
      exact ⟨[], rfl⟩

theorem trimSpace_idempotent (G : GoLib) (s : List Char) :
    TrimSpace G (TrimSpace G s) = TrimSpace G s := by
  unfold TrimSpace
  generalize hm : s.dropWhile (IsSpace G) = m
  have hfront : (((m.reverse.dropWhile (IsSpace G)).reverse).dropWhile (IsSpace G)) =
      (m.reverse.dropWhile (IsSpace G)).reverse := by
    apply dropWhile_of_head_not
    intro a t hat
    obtain ⟨d, hd⟩ := dropWhile_suffix_split (IsSpace G) m.reverse
    have hmr : m = (m.reverse.dropWhile (IsSpace G)).reverse ++ d.reverse := by
      have := congrArg List.reverse hd
      rw [List.reverse_reverse, List.reverse_append] at this
      exact this
    rw [hat, List.cons_append] at hmr
    exact dropWhile_head_not (IsSpace G) s a _ (hm.trans hmr)
  rw [hfront, List.reverse_reverse, dropWhile_dropWhile]

/-- Over exact real arithmetic the outcome of `evaluatePassword` depends on the
password only through its trimmed form.  This says nothing about the `float64`
bits of `ShannonEntropy`, which in Go depend on the iteration order of a map. -/
theorem evaluatePassword_trim_invariant (G : GoLib) (p q : List Char)
    (S : Option (List (List Char))) (h : TrimSpace G p = TrimSpace G q) :
    evaluatePassword G p S = evaluatePassword G q S ∧
      evaluatePassword G p S = evaluatePassword G (TrimSpace G p) S ∧
      (∀ r, evaluatePassword G p S = .ok r → r.Password = TrimSpace G p) := by
  refine ⟨?_, ?_, ?_⟩
  · rw [evaluatePassword_eq, evaluatePassword_eq, h]
  · rw [evaluatePassword_eq, evaluatePassword_eq G (TrimSpace G p), trimSpace_idempotent]
  · intro r hr
    obtain ⟨-, rfl⟩ := evaluatePassword_ok hr
    rfl

/-! ## `shannonEntropy` on a two-byte character -/

/-- C16. For the string `éé` (two code points, four bytes) `shannonEntropy` returns
2: the count 2 of `é` is divided by the byte length 4, which gives `p = 1/2` and
`H = 1/2`, multiplied by 4.  For the ASCII string `aa` it returns 0. -/
theorem shannonEntropy_two_byte_char :
    shannonEntropy "éé".toList = 2 ∧ runeCount "éé".toList = 2 ∧ len "éé".toList = 4 ∧
      shannonEntropy "aa".toList = 0 := by
  have hlog : Real.logb 2 (1 / 2) = -1 := by
    have h24 : (1 : ℝ) / 2 = 2⁻¹ := by norm_num
    rw [h24, Real.logb_inv, Real.logb_self_eq_one (by norm_num)]
  refine ⟨?_, rfl, by decide, ?_⟩
  · have hlen : len "éé".toList = 4 := by decide
    have hdd : "éé".toList.dedup = ['é'] := by decide
    have hcnt : "éé".toList.count 'é' = 2 := by decide
    unfold shannonEntropy
    rw [hlen, hdd]
    simp only [List.foldl_cons, List.foldl_nil, hcnt]
    norm_num
    rw [hlog]
    norm_num
  · have hlen : len "aa".toList = 2 := by decide
    have hdd : "aa".toList.dedup = ['a'] := by decide
    have hcnt : "aa".toList.count 'a' = 2 := by decide
    unfold shannonEntropy
    rw [hlen, hdd]
    simp only [List.foldl_cons, List.foldl_nil, hcnt]
    norm_num

/-! ## Bounds of the score -/

theorem goRound_le_int (x : ℝ) (n : ℤ) (h : x ≤ n) : goRound x ≤ n := by
  unfold goRound
  split_ifs with hx
  · have hlt : ⌊x + 1 / 2⌋ < n + 1 := by
      rw [Int.floor_lt]
      push_cast
      linarith
    have hle : ⌊x + 1 / 2⌋ ≤ n := by omega
    exact_mod_cast hle
  · have hle : -n ≤ ⌊-x + 1 / 2⌋ := by
      rw [Int.le_floor]
      push_cast
      linarith
    have hr : (-n : ℝ) ≤ (⌊-x + 1 / 2⌋ : ℝ) := by exact_mod_cast hle
    linarith

theorem int_le_goRound (x : ℝ) (n : ℤ) (h : (n : ℝ) ≤ x) : (n : ℝ) ≤ goRound x := by
  unfold goRound
  split_ifs with hx
  · have hle : n ≤ ⌊x + 1 / 2⌋ := by
      rw [Int.le_floor]
      linarith
    exact_mod_cast hle
  · have hlt : ⌊-x + 1 / 2⌋ < -n + 1 := by
      rw [Int.floor_lt]
      push_cast
      linarith
    have hle : ⌊-x + 1 / 2⌋ ≤ -n := by omega
    have hr : (⌊-x + 1 / 2⌋ : ℝ) ≤ (-n : ℝ) := by exact_mod_cast hle
    linarith

theorem rawScore_bounds (be : ℝ) (hbe : 0 ≤ be) (u l d sy c rep sq odl : Bool) :
    -19 / 2 ≤ rawScore be u l d sy c rep sq odl ∧ rawScore be u l d sy c rep sq odl ≤ 8 := by
  have hmin : min (be / 20) 5 ≤ 5 := min_le_right _ _
  have hmin0 : 0 ≤ min (be / 20) 5 := le_min (by linarith) (by norm_num)
  have h1 : (if (u && l) then (1 : ℝ) else 0) ≤ 1 ∧ (0 : ℝ) ≤ (if (u && l) then 1 else 0) := by
    split_ifs <;> norm_num
  have h2 : (if d then (1 : ℝ) else 0) ≤ 1 ∧ (0 : ℝ) ≤ (if d then 1 else 0) := by
    split_ifs <;> norm_num
  have h3 : (if sy then (1 : ℝ) else 0) ≤ 1 ∧ (0 : ℝ) ≤ (if sy then 1 else 0) := by
    split_ifs <;> norm_num
  have h4 : (if c then (5 : ℝ) else 0) ≤ 5 ∧ (0 : ℝ) ≤ (if c then 5 else 0) := by
    split_ifs <;> norm_num
  have h5 : (if rep then (2 : ℝ) else 0) ≤ 2 ∧ (0 : ℝ) ≤ (if rep then 2 else 0) := by
    split_ifs <;> norm_num
  have h6 : (if sq then (2 : ℝ) else 0) ≤ 2 ∧ (0 : ℝ) ≤ (if sq then 2 else 0) := by
    split_ifs <;> norm_num
  have h7 : (if odl then (1 / 2 : ℝ) else 0) ≤ 1 / 2 ∧ (0 : ℝ) ≤ (if odl then 1 / 2 else 0) := by
    split_ifs <;> norm_num
  rw [rawScore_eq_sum]
  constructor <;> linarith [h1.1, h1.2, h2.1, h2.2, h3.1, h3.2, h4.1, h4.2, h5.1, h5.2,
    h6.1, h6.2, h7.1, h7.2]

theorem symbol_excludes_onlyDL (G : GoLib) (pw : List Char)
    (h : pw.any (fun r => !IsLetter G r && !IsDigit G r) = true) :
    isOnlyDigitsOrLetters G pw = false := by
  rw [List.any_eq_true] at h
  obtain ⟨r, hr, hs⟩ := h
  simp only [Bool.and_eq_true, Bool.not_eq_true'] at hs
  rw [isOnlyDigitsOrLetters_eq, Bool.or_eq_false_iff]
  constructor
  · rw [Bool.eq_false_iff]
    intro hall
    have := (List.all_eq_true.mp hall) r hr
    rw [hs.2] at this
    cases this
  · rw [Bool.eq_false_iff]
    intro hall
    have := (List.all_eq_true.mp hall) r hr
    rw [hs.1] at this
    cases this

/-- C19. Whenever `evaluatePassword` returns a `Result`, the entropy term
`min(BruteforceEntropy/20, 5)` lies in `[0, 5]`, the unrounded score and `ScoreRaw`
lie in `[-9.5, 8.0]`, and `HasSymbol` and `OnlyDigitsOrLetters` are not both
true. -/
theorem evaluatePassword_score_bounds (G : GoLib) (p : List Char)
    (S : Option (List (List Char))) (r : Result) (h : evaluatePassword G p S = .ok r) :
    0 ≤ min (r.BruteforceEntropy / 20) 5 ∧ min (r.BruteforceEntropy / 20) 5 ≤ 5 ∧
      -19 / 2 ≤ r.score ∧ r.score ≤ 8 ∧
      -19 / 2 ≤ r.ScoreRaw ∧ r.ScoreRaw ≤ 8 ∧
      (r.HasSymbol = true → r.OnlyDigitsOrLetters = false) := by
  obtain ⟨-, rfl⟩ := evaluatePassword_ok h
  have hbe : 0 ≤ (resultOf G (TrimSpace G p) S true).BruteforceEntropy :=
    bruteforceEntropy_nonneg G (TrimSpace G p)
  have hs := rawScore_bounds _ hbe
    (resultOf G (TrimSpace G p) S true).HasUpper (resultOf G (TrimSpace G p) S true).HasLower
    (resultOf G (TrimSpace G p) S true).HasDigit (resultOf G (TrimSpace G p) S true).HasSymbol
    (resultOf G (TrimSpace G p) S true).IsCommon
    (resultOf G (TrimSpace G p) S true).RepeatedSequence
    (resultOf G (TrimSpace G p) S true).Sequential
    (resultOf G (TrimSpace G p) S true).OnlyDigitsOrLetters
  have hraw := (resultOf_score G (TrimSpace G p) S true).1
  have hlo : ((-950 : ℤ) : ℝ) ≤ goRound ((resultOf G (TrimSpace G p) S true).score * 100) := by
    apply int_le_goRound
    have := hs.1
    unfold Result.score
    push_cast
    linarith
  have hhi : goRound ((resultOf G (TrimSpace G p) S true).score * 100) ≤ ((800 : ℤ) : ℝ) := by
    apply goRound_le_int
    have := hs.2
    unfold Result.score
    push_cast
    linarith
  push_cast at hlo hhi
  refine ⟨le_min (by linarith) (by norm_num), min_le_right _ _, hs.1, hs.2, ?_, ?_, ?_⟩
  · rw [hraw]
    linarith
  · rw [hraw]
    linarith
  · intro hsym
    exact symbol_excludes_onlyDL G (TrimSpace G p) hsym

theorem evaluatePassword_x9_twice :
    evaluatePassword latin1Lib "x9?x9?".toList none =
      .ok (resultOf latin1Lib "x9?x9?".toList none true) :=
  evaluatePassword_of_periodic none (by decide)

/-- Instance of the bounds theorem: the password `x9?x9?`, whose `HasSymbol` is
true. -/
theorem evaluatePassword_score_bounds_witness :
    evaluatePassword latin1Lib "x9?x9?".toList none =
        .ok (resultOf latin1Lib "x9?x9?".toList none true) ∧
      (resultOf latin1Lib "x9?x9?".toList none true).HasSymbol = true ∧
      -19 / 2 ≤ (resultOf latin1Lib "x9?x9?".toList none true).ScoreRaw ∧
      (resultOf latin1Lib "x9?x9?".toList none true).ScoreRaw ≤ 8 ∧
      (resultOf latin1Lib "x9?x9?".toList none true).OnlyDigitsOrLetters = false :=
  have hb := evaluatePassword_score_bounds latin1Lib "x9?x9?".toList none _
    evaluatePassword_x9_twice
  have hsym : (resultOf latin1Lib "x9?x9?".toList none true).HasSymbol = true := by decide
  ⟨evaluatePassword_x9_twice, hsym, hb.2.2.2.2.1, hb.2.2.2.2.2.1, hb.2.2.2.2.2.2 hsym⟩

end PasswordChecker
